import Mathlib

/-!
Verification development for the cvs-clinical-codes-finder repository.

The frontend markdown-result parser (`parseCodeResults`, `hasCodeResults` in
src/frontend/src/components/CodeResultCard.tsx) is embedded via a small
backtracking matcher that mirrors JavaScript regular-expression semantics
(leftmost match, greedy/lazy quantifiers over character classes) for the
specific patterns the component uses.  The Zustand stores
(bundleStore.ts, chatHistoryStore.ts), the input gate (InputArea.tsx) and
the PRD confidence formula (src/unnamed/part_006) are embedded directly.
Orchestrator components absent from the sources are modelled from the spec
and marked as such in their doc comments.
-/

namespace CCF

/-- Backtick character, written via its code point. -/
def tick : Char := Char.ofNat 96

/-- Token of a linear regular expression: literal character, one-or-more of a
character class (greedy or lazy, optionally capturing), zero-or-more of a
class (greedy, non-capturing), an optional literal character (greedy), and
the end-of-input anchor.  These cover every pattern used by the component. -/
inductive Tok where
  | lit : Char → Tok
  | plus : (Char → Bool) → Bool → Bool → Tok
  | star : (Char → Bool) → Tok
  | opt : Char → Tok
  | eol : Tok

/-- Length of the maximal run of characters satisfying `p` at the head. -/
def runLen (p : Char → Bool) : List Char → Nat
  | [] => 0
  | c :: cs => if p c then runLen p cs + 1 else 0

/-- First defined value in a list of alternatives (backtracking order). -/
def pickFirst {α : Type} : List (Option α) → Option α
  | [] => none
  | some a :: _ => some a
  | none :: rest => pickFirst rest

/-- Match a token sequence against a prefix of the input, returning the list
of captured groups of the first successful backtracking branch, in group
order.  `Tok.plus p lazy cap` tries run lengths 1..run (lazy) or run..1
(greedy); `Tok.star` tries run..0; `Tok.opt` tries consuming first.  This is
exactly the JavaScript backtracking order for these linear patterns. -/
def mseq : List Tok → List Char → Option (List (List Char))
  | [], _ => some []
  | Tok.lit _ :: _, [] => none
  | Tok.lit c :: ts, x :: xs => if x = c then mseq ts xs else none
  | Tok.opt _ :: ts, [] => mseq ts []
  | Tok.opt c :: ts, x :: xs =>
    if x = c then pickFirst [mseq ts xs, mseq ts (x :: xs)] else mseq ts (x :: xs)
  | Tok.plus p lz cap :: ts, l =>
    let r := runLen p l
    let ks := if lz then List.range' 1 r else (List.range' 1 r).reverse
    pickFirst (ks.map (fun k =>
      (mseq ts (l.drop k)).map (fun caps => if cap then l.take k :: caps else caps)))
  | Tok.star p :: ts, l =>
    let r := runLen p l
    pickFirst (((List.range (r + 1)).reverse).map (fun k => mseq ts (l.drop k)))
  | Tok.eol :: ts, [] => mseq ts []
  | Tok.eol :: _, _ :: _ => none

/-- Unanchored search: try a match starting at every position, leftmost
first, as JavaScript `String.prototype.match` does for unanchored regexes. -/
def msearch (ts : List Tok) : List Char → Option (List (List Char))
  | [] => mseq ts []
  | c :: xs =>
    match mseq ts (c :: xs) with
    | some r => some r
    | none => msearch ts xs

/-- Character class of JavaScript `\s` (whitespace, including line
terminators and the Unicode space separators). -/
def wsChar (c : Char) : Bool :=
  let n := c.toNat
  n == 0x20 || n == 0x9 || n == 0xa || n == 0xb || n == 0xc || n == 0xd ||
  n == 0xa0 || n == 0x1680 || (decide (0x2000 ≤ n) && decide (n ≤ 0x200a)) ||
  n == 0x2028 || n == 0x2029 || n == 0x202f || n == 0x205f || n == 0x3000 ||
  n == 0xfeff

/-- Character class of JavaScript `.` (anything but a line terminator). -/
def dotChar (c : Char) : Bool :=
  let n := c.toNat
  !(n == 0xa || n == 0xd || n == 0x2028 || n == 0x2029)

/-- Character class of JavaScript `\d`. -/
def digitChar (c : Char) : Bool :=
  decide ('0' ≤ c) && decide (c ≤ '9')

/-- Character class of `[^\x60]` (anything but a backtick). -/
def notTick (c : Char) : Bool := !(c == tick)

/-- Tokens of `###\s+(.+?)\s+\(\d+\s+results?\)` — the system header pattern
shared by `parseCodeResults` (anchored per line) and `hasCodeResults`
(unanchored over the whole message). -/
def headerToks : List Tok :=
  [Tok.lit '#', Tok.lit '#', Tok.lit '#',
   Tok.plus wsChar false false,
   Tok.plus dotChar true true,
   Tok.plus wsChar false false,
   Tok.lit '(',
   Tok.plus digitChar false false,
   Tok.plus wsChar false false,
   Tok.lit 'r', Tok.lit 'e', Tok.lit 's', Tok.lit 'u', Tok.lit 'l', Tok.lit 't',
   Tok.opt 's',
   Tok.lit ')']

/-- Tokens of `^\s*-\s*>\s*Parent:\s*\x60([^\x60]+)\x60\s*(.+)$` — the parent
hierarchy line pattern. -/
def parentToks : List Tok :=
  [Tok.star wsChar, Tok.lit '-', Tok.star wsChar, Tok.lit '>', Tok.star wsChar,
   Tok.lit 'P', Tok.lit 'a', Tok.lit 'r', Tok.lit 'e', Tok.lit 'n', Tok.lit 't',
   Tok.lit ':', Tok.star wsChar,
   Tok.lit tick, Tok.plus notTick false true, Tok.lit tick,
   Tok.star wsChar, Tok.plus dotChar false true, Tok.eol]

/-- Tokens of the code pattern `\x60([^\x60]+)\x60`. -/
def codeToks : List Tok :=
  [Tok.lit tick, Tok.plus notTick false true, Tok.lit tick]

/-- Tokens of the display pattern `\*\*(.+?)\*\*`. -/
def displayToks : List Tok :=
  [Tok.lit '*', Tok.lit '*', Tok.plus dotChar true true, Tok.lit '*', Tok.lit '*']

/-- Tokens of the percentage pattern `(\d+)%`. -/
def pctToks : List Tok :=
  [Tok.plus digitChar false true, Tok.lit '%']

/-- JavaScript `String.prototype.trim`: strip whitespace from both ends. -/
def jsTrim (l : List Char) : List Char :=
  ((l.dropWhile wsChar).reverse.dropWhile wsChar).reverse

/-- JavaScript `str.split('\n')`: split on every newline, keeping empty
pieces, and producing one trailing piece after the last newline. -/
def splitNl : List Char → List (List Char)
  | [] => [[]]
  | c :: rest =>
    if c = '\n' then [] :: splitNl rest
    else
      match splitNl rest with
      | [] => [[c]]
      | l :: ls => (c :: l) :: ls

/-- Value of `parseInt` on a nonempty digit string. -/
def digitsToNat (l : List Char) : Nat :=
  l.foldl (fun a c => a * 10 + (c.toNat - 48)) 0

/-- One parsed clinical code entry (the `CodeResult` interface of
CodeResultCard.tsx); the two optional parent fields start absent. -/
structure CodeResult where
  code : List Char
  display : List Char
  confidence : ℚ
  system : List Char
  parentCode : Option (List Char)
  parentDisplay : Option (List Char)
deriving DecidableEq

/-- Association-list model of a JavaScript `Map`: `set` replaces the value
in place when the key is present (keeping insertion order) and appends
otherwise. -/
def mapSet (m : List (List Char × List CodeResult)) (k : List Char)
    (v : List CodeResult) : List (List Char × List CodeResult) :=
  if m.any (fun p => p.1 = k) then
    m.map (fun p => if p.1 = k then (k, v) else p)
  else m ++ [(k, v)]

/-- JavaScript `Map.has`. -/
def mapHas (m : List (List Char × List CodeResult)) (k : List Char) : Bool :=
  m.any (fun p => p.1 = k)

/-- In-place mutation of the array stored under key `k` (JavaScript arrays
in the map are mutated by `push` and by writes through `lastResult`). -/
def mapModify (m : List (List Char × List CodeResult)) (k : List Char)
    (f : List CodeResult → List CodeResult) : List (List Char × List CodeResult) :=
  m.map (fun p => if p.1 = k then (k, f p.2) else p)

/-- Mutate the last element of a list (the object `lastResult` points to). -/
def updateLast (f : CodeResult → CodeResult) : List CodeResult → List CodeResult
  | [] => []
  | [a] => [f a]
  | a :: b :: rest => a :: updateLast f (b :: rest)

/-- Loop state of `parseCodeResults`: the accumulated systems map, the
`currentSystem` string, the summary accumulator, the `inResults` flag, and
the system whose last array element is the live `lastResult` object
(`none` models `lastResult === null`). -/
structure ParseAcc where
  systems : List (List Char × List CodeResult)
  currentSystem : List Char
  summary : List Char
  inResults : Bool
  lastSys : Option (List Char)
deriving DecidableEq

/-- Summary accumulation step of `parseCodeResults` (its final `if`): a line
before the first header that is nonempty after trimming and starts with
neither `---` nor `*Searched:` is appended to the summary. -/
def stepSummary (st : ParseAcc) (line : List Char) : ParseAcc :=
  if !st.inResults && !(jsTrim line).isEmpty &&
     !(List.isPrefixOf (("---").toList) line) &&
     !(List.isPrefixOf (("*Searched:").toList) line) then
    { st with summary :=
        if st.summary.isEmpty then line else st.summary ++ '\n' :: line }
  else st

/-- Result-line step of `parseCodeResults`: when a system is current, the
map has it, and the trimmed line starts with `-`, a line containing both a
backtick-delimited code and a `**display**` is pushed onto the current
system's array; the confidence is the matched percentage over 100, with
0.5 as the default.  Otherwise control falls through to the summary step,
exactly as in the source. -/
def stepResult (st : ParseAcc) (line : List Char) : ParseAcc :=
  if !st.currentSystem.isEmpty && mapHas st.systems st.currentSystem &&
     (match jsTrim line with | c :: _ => c == '-' | [] => false) then
    match msearch codeToks line, msearch displayToks line with
    | some cc, some dd =>
      let conf : ℚ :=
        match msearch pctToks line with
        | some pp => mkRat (digitsToNat (pp.headD [])) 100
        | none => mkRat 1 2
      let r : CodeResult :=
        ⟨cc.headD [], dd.headD [], conf, st.currentSystem, none, none⟩
      { st with systems := mapModify st.systems st.currentSystem (fun rs => rs ++ [r]),
                lastSys := some st.currentSystem }
    | _, _ => stepSummary st line
  else stepSummary st line

/-- Parent-line step of `parseCodeResults`: a line matching the parent
pattern while `lastResult` is non-null writes the two captures (the second
one trimmed) into the last pushed result; otherwise control falls through
to the result-line step. -/
def stepParent (st : ParseAcc) (line : List Char) : ParseAcc :=
  match mseq parentToks line, st.lastSys with
  | some caps, some k =>
    { st with systems := mapModify st.systems k (updateLast (fun r =>
        { r with parentCode := some (caps.headD []),
                 parentDisplay := some (jsTrim ((caps.drop 1).headD [])) })) }
  | _, _ => stepResult st line

/-- Per-line step of `parseCodeResults`, checks in source order: header
line first (reset the system's array, set `currentSystem` and `inResults`,
null `lastResult`), then parent line, then result line, then summary. -/
def processLine (st : ParseAcc) (line : List Char) : ParseAcc :=
  match mseq headerToks line with
  | some caps =>
    let sys := caps.headD []
    { systems := mapSet st.systems sys [], currentSystem := sys,
      summary := st.summary, inResults := true, lastSys := none }
  | none => stepParent st line

/-- Return value of `parseCodeResults`. -/
structure ParsedMessage where
  summary : List Char
  systems : List (List Char × List CodeResult)
deriving DecidableEq

/-- Initial loop state of `parseCodeResults`. -/
def initAcc : ParseAcc := ⟨[], [], [], false, none⟩

/-- Embedding of `parseCodeResults` (CodeResultCard.tsx): split the
markdown on newlines and fold the per-line step. -/
def parseCodeResults (s : List Char) : ParsedMessage :=
  let st := (splitNl s).foldl processLine initAcc
  ⟨st.summary, st.systems⟩

/-- Embedding of `hasCodeResults` (CodeResultCard.tsx): unanchored test of
the header pattern over the whole message. -/
def hasCodeResults (s : List Char) : Bool :=
  (msearch headerToks s).isSome

/-- One bundle entry (the `BundleItem` type used by bundleStore.ts). -/
structure BundleItem where
  code : String
  system : String
  display : String
deriving DecidableEq

/-- Data part of the bundle store state (bundleStore.ts). -/
structure BundleState where
  items : List BundleItem
  isOpen : Bool
deriving DecidableEq

/-- Embedding of `addItem`: return unchanged when an item with the same
code and system is present, otherwise append and open the sidebar. -/
def addItem (st : BundleState) (item : BundleItem) : BundleState :=
  if st.items.any (fun i => i.code == item.code && i.system == item.system) then st
  else { items := st.items ++ [item], isOpen := true }

/-- Embedding of `removeItem`: drop every item with the given pair. -/
def removeItem (st : BundleState) (code system : String) : BundleState :=
  { st with items := st.items.filter (fun i => !(i.code == code && i.system == system)) }

/-- Embedding of `clear`. -/
def clearBundle : BundleState := ⟨[], false⟩

/-- Embedding of `hasItem`. -/
def hasItem (st : BundleState) (code system : String) : Bool :=
  st.items.any (fun i => i.code == code && i.system == system)

/-- Embedding of `toggleOpen`. -/
def toggleOpen (st : BundleState) : BundleState := { st with isOpen := !st.isOpen }

/-- Embedding of `setOpen`. -/
def setOpen (st : BundleState) (b : Bool) : BundleState := { st with isOpen := b }

/-- One user-visible action on the bundle store. -/
inductive BundleOp where
  | add : BundleItem → BundleOp
  | remove : String → String → BundleOp
  | clr : BundleOp
  | toggle : BundleOp
  | setOp : Bool → BundleOp

/-- Apply one bundle action. -/
def applyBundleOp (st : BundleState) : BundleOp → BundleState
  | BundleOp.add i => addItem st i
  | BundleOp.remove c s => removeItem st c s
  | BundleOp.clr => clearBundle
  | BundleOp.toggle => toggleOpen st
  | BundleOp.setOp b => setOpen st b

/-- States of the bundle store reached from its initial state. -/
def runBundle (ops : List BundleOp) : BundleState :=
  ops.foldl applyBundleOp ⟨[], false⟩

/-- No two items share a (code, system) pair. -/
def BundleUniq (l : List BundleItem) : Prop :=
  l.Pairwise (fun a b => ¬(a.code = b.code ∧ a.system = b.system))

/-- One stored chat message (chatHistoryStore.ts). -/
structure ChatMessage where
  id : String
  role : String
  content : String
  timestamp : String
deriving DecidableEq

/-- One stored conversation thread (chatHistoryStore.ts). -/
structure ChatThread where
  id : String
  name : String
  createdAt : String
  updatedAt : String
  messages : List ChatMessage
deriving DecidableEq

/-- Data part of the chat-history store state. -/
structure ChatHistoryState where
  threads : List ChatThread
  currentThreadId : Option String
  liveThreadId : Option String
  isOpen : Bool
deriving DecidableEq

/-- JavaScript `a || b` on a nullable string: `null` and the empty string
are falsy. -/
def jsOr (a b : Option String) : Option String :=
  match a with
  | some s => if s.isEmpty then b else some s
  | none => b

/-- Embedding of `createThread`: prepend a fresh empty thread and make it
both the current and the live thread.  The generated id and timestamp are
passed in (the source draws them from `Date.now` and `Math.random`). -/
def createThread (st : ChatHistoryState) (id now : String) : ChatHistoryState :=
  { st with
    threads := { id := id, name := "New conversation", createdAt := now,
                 updatedAt := now, messages := [] } :: st.threads,
    currentThreadId := some id,
    liveThreadId := some id }

/-- Embedding of `deleteThread`: filter out the thread, but return the
state unchanged when the id is the live thread's; when the current thread
was deleted, fall back to the live thread or the first remaining one. -/
def deleteThread (st : ChatHistoryState) (id : String) : ChatHistoryState :=
  let filtered := st.threads.filter (fun t => !(t.id == id))
  if st.liveThreadId == some id then st
  else
    let newCurrentId :=
      if st.currentThreadId == some id then
        jsOr st.liveThreadId (match filtered with | t :: _ => some t.id | [] => none)
      else st.currentThreadId
    { st with threads := filtered, currentThreadId := newCurrentId }

/-- A thread-creating or thread-deleting action. -/
inductive ChatOp where
  | create : String → String → ChatOp
  | delete : String → ChatOp

/-- Apply one chat-history action. -/
def applyChatOp (st : ChatHistoryState) : ChatOp → ChatHistoryState
  | ChatOp.create id now => createThread st id now
  | ChatOp.delete id => deleteThread st id

/-- States of the chat-history store reached from its initial state by
`createThread` and `deleteThread` operations. -/
def runChat (ops : List ChatOp) : ChatHistoryState :=
  ops.foldl applyChatOp ⟨[], none, none, false⟩

/-- The live thread id, when set, names a thread that exists. -/
def LiveOk (st : ChatHistoryState) : Prop :=
  ∀ i, st.liveThreadId = some i → ∃ t ∈ st.threads, t.id = i

/-- Component state of InputArea.tsx relevant to submission. -/
structure InputAreaState where
  input : List Char
  loading : Bool

/-- Outcome of one `handleSubmit` call: the user messages passed to
`sendMessage` and the input field's new value. -/
structure SubmitOutcome where
  sent : List (List Char)
  input : List Char

/-- Embedding of `handleSubmit` (InputArea.tsx): return early — sending
nothing and leaving the input unchanged — when the trimmed input is empty
or a request is loading; otherwise send the trimmed input and clear the
field. -/
def handleSubmit (st : InputAreaState) : SubmitOutcome :=
  if (jsTrim st.input).isEmpty || st.loading then ⟨[], st.input⟩
  else ⟨[jsTrim st.input], []⟩

/-- A consolidated result of the orchestrator (spec §3 data model). -/
structure ConsolidatedResult where
  system : String
  code : String
  display : String
  confidence : ℚ
  tier : String
  relatedCodes : List (String × String)
deriving DecidableEq

/-- Caller-facing outcome of one orchestration run (spec §6). -/
structure RunOutcome where
  summary : List Char
  results : List ConsolidatedResult
  backendCalls : Nat

/-- Fixed summary used for an empty query (spec §7 `EmptyQuery`). -/
def noQueryMessage : List Char := ("no query provided").toList

/-- Modelled from the spec: the orchestrator entry point `runSearch` is not
part of the sources (only the frontend and the PRD are).  Per §7, an
empty-after-trimming query is rejected before CLASSIFY with the fixed
"no query provided" summary, an empty result list and zero backend calls;
any other query is handled by the rest of the pipeline, abstracted here as
the `doSearch` parameter. -/
def runSearch (doSearch : List Char → RunOutcome) (q : List Char) : RunOutcome :=
  if (jsTrim q).isEmpty then ⟨noQueryMessage, [], 0⟩
  else doSearch q

/-- Budget-relevant counters of one orchestration run. -/
structure OrchBudgetState where
  iterations : Nat
  calls : Nat

/-- Modelled from the spec: the Orchestrator's bounded iteration loop is
not part of the sources.  Per §4.7/§9 it is a finite-state machine with a
bounded transition counter: before each iteration it stops when 3
iterations were run or 12 calls were made, the Planner never plans more
calls than remain in the global budget (§4.2, modelled by the `min`), and
the Reflector's stop decision (`stop`, arbitrary) is consulted only after
the budget guards. -/
def orchIters (stop : Nat → Bool) (wanted : Nat → Nat) :
    Nat → OrchBudgetState → OrchBudgetState
  | 0, st => st
  | n + 1, st =>
    if 3 ≤ st.iterations || 12 ≤ st.calls then st
    else if stop st.iterations then
      ⟨st.iterations + 1, st.calls + min (wanted st.iterations) (12 - st.calls)⟩
    else
      orchIters stop wanted n
        ⟨st.iterations + 1, st.calls + min (wanted st.iterations) (12 - st.calls)⟩

/-- Modelled from the spec: one full run starts with zero counters and at
most 3 loop transitions (the bounded transition counter of §9). -/
def runOrchestration (stop : Nat → Bool) (wanted : Nat → Nat) : OrchBudgetState :=
  orchIters stop wanted 3 ⟨0, 0⟩

/-- One backend result as scored (PRD §3.6): display text, code, and the
backend's own rank, with `rank` defaulting to 0 as in `result.get`. -/
structure PRDResult where
  display : String
  code : String
  rank : ℕ
deriving DecidableEq

/-- The code-specificity factor of PRD §3.6: code length over 10. -/
def code_specificity (code : String) : ℚ := (code.length : ℚ) / 10

/-- Embedding of `compute_confidence` (src/unnamed/part_006 §3.6), exact
rational arithmetic in place of floats; `jaccard_similarity` and
`embedding_similarity` are external helpers, passed as parameters.  The
body is the PRD's `sum(score * weight for score, weight in scores)`. -/
def compute_confidence (jaccard embedding : String → String → ℚ)
    (query : String) (result : PRDResult) : ℚ :=
  jaccard query result.display * (30 / 100)
  + 1 / (1 + (result.rank : ℚ) * (1 / 10)) * (20 / 100)
  + min ((result.code.length : ℚ) / 10) 1 * (20 / 100)
  + embedding query result.display * (30 / 100)

/-- A scored result entering consolidation (spec §3 data model). -/
structure ScoredResult where
  system : String
  code : String
  display : String
  confidence : ℚ
  metadata : List (String × String)
deriving DecidableEq

/-- Modelled from the spec: exact-dedup merge step of §4.6(a) — results
sharing (system, code) collapse to one, keeping the maximum confidence and
the union of metadata. -/
def mergeInto (acc : List ScoredResult) (r : ScoredResult) : List ScoredResult :=
  if acc.any (fun a => a.system == r.system && a.code == r.code) then
    acc.map (fun a =>
      if a.system == r.system && a.code == r.code then
        { a with confidence := max a.confidence r.confidence,
                 metadata := a.metadata ++ r.metadata.filter (fun m => !(a.metadata.contains m)) }
      else a)
  else acc ++ [r]

/-- Modelled from the spec: phase (a) of `consolidate`. -/
def dedupExact (l : List ScoredResult) : List ScoredResult :=
  l.foldl mergeInto []

/-- Modelled from the spec: a result joins a cluster when some member from
a different system is semantically similar at or above 0.92 (§4.6(b)). -/
def joinsCluster (sim : String → String → ℚ) (r : ScoredResult)
    (cluster : List ScoredResult) : Bool :=
  cluster.any (fun m => !(m.system == r.system) &&
    decide ((92 : ℚ) / 100 ≤ sim m.display r.display))

/-- Modelled from the spec: put a result into the first cluster it joins,
or open a new cluster at the end. -/
def insertCluster (sim : String → String → ℚ) (r : ScoredResult) :
    List (List ScoredResult) → List (List ScoredResult)
  | [] => [[r]]
  | c :: cs =>
    if joinsCluster sim r c then (c ++ [r]) :: cs else c :: insertCluster sim r cs

/-- Modelled from the spec: phase (b) of `consolidate`. -/
def clusterAll (sim : String → String → ℚ) (l : List ScoredResult) :
    List (List ScoredResult) :=
  l.foldl (fun cs r => insertCluster sim r cs) []

/-- Modelled from the spec: the cluster representative is its
highest-confidence member, the first such member on ties (§4.6). -/
def chooseRep : ScoredResult → List ScoredResult → ScoredResult
  | b, [] => b
  | b, m :: ms => chooseRep (if decide (b.confidence < m.confidence) then m else b) ms

/-- Modelled from the spec: confidence tiers — high (>0.8), medium
(0.5–0.8), possible (0.3–0.5). -/
def tierOf (c : ℚ) : String :=
  if 8 / 10 < c then "high" else if 5 / 10 ≤ c then "medium" else "possible"

/-- Modelled from the spec: the representative's consolidated entry, other
cluster members attached as related codes. -/
def mkConsolidated (rep : ScoredResult) (others : List ScoredResult) :
    ConsolidatedResult :=
  ⟨rep.system, rep.code, rep.display, rep.confidence, tierOf rep.confidence,
   others.map (fun m => (m.system, m.code))⟩

/-- Modelled from the spec: system priority for tie-breaking, matching the
order backends are queried (§4.6). -/
def sysPriority (s : String) : Nat :=
  (["ICD-10-CM", "RxTerms", "LOINC", "HCPCS", "UCUM", "HPO"] : List String).indexOf s

/-- Modelled from the spec: final ranking order — confidence descending,
ties by system priority, then by code lexical order (§4.6). -/
def rankLe (a b : ConsolidatedResult) : Bool :=
  decide (b.confidence < a.confidence) ||
  (a.confidence == b.confidence &&
    (decide (sysPriority a.system < sysPriority b.system) ||
     (sysPriority a.system == sysPriority b.system && decide (a.code ≤ b.code))))

/-- Insertion into a list sorted by `rankLe`. -/
def insSorted (x : ConsolidatedResult) :
    List ConsolidatedResult → List ConsolidatedResult
  | [] => [x]
  | y :: ys => if rankLe x y then x :: y :: ys else y :: insSorted x ys

/-- Insertion sort by `rankLe`. -/
def sortRank (l : List ConsolidatedResult) : List ConsolidatedResult :=
  l.foldr insSorted []

/-- Modelled from the spec: keep at most `n` results per system, in rank
order (§4.6, default 3). -/
def capPerSystem (n : Nat) (l : List ConsolidatedResult) : List ConsolidatedResult :=
  (l.foldl (fun (acc : List ConsolidatedResult × List (String × Nat)) r =>
    let cnt := ((acc.2.lookup r.system).getD 0)
    if cnt < n then
      (acc.1 ++ [r], (r.system, cnt + 1) :: acc.2.filter (fun p => !(p.1 == r.system)))
    else acc) ([], [])).1

/-- Modelled from the spec: `consolidate` (§4.6, PRD FR-7) — exact dedup,
greedy semantic clustering over the external similarity oracle `sim`,
representative selection, dropping everything below 0.3 confidence, final
deterministic ranking, and the per-system cap of 3. -/
def consolidate (sim : String → String → ℚ) (l : List ScoredResult) :
    List ConsolidatedResult :=
  let deduped := dedupExact l
  let clusters := clusterAll sim deduped
  let entries := clusters.filterMap (fun c =>
    match c with
    | [] => none
    | r0 :: rest =>
      let rep := chooseRep r0 rest
      some (mkConsolidated rep ((r0 :: rest).erase rep)))
  let kept := entries.filter (fun r => decide ((3 : ℚ) / 10 ≤ r.confidence))
  capPerSystem 3 (sortRank kept)

/-- Concrete message used to instantiate the no-fabricated-codes theorem. -/
def exC1input : List Char :=
  ("### ICD-10-CM (1 results)\n- \x60E11.9\x60 **Type 2 diabetes** 85%").toList

/-- System name parsed from `exC1input`. -/
def exC1sys : List Char := ("ICD-10-CM").toList

/-- Result parsed from `exC1input`. -/
def exC1res : CodeResult :=
  ⟨("E11.9").toList, ("Type 2 diabetes").toList, mkRat 85 100,
   ("ICD-10-CM").toList, none, none⟩

/-- Concrete message whose result line carries a percentage above 100. -/
def exC2input : List Char :=
  ("### A (1 results)\n- \x60X\x60 **y** 150%").toList

/-- Result parsed from `exC2input`; its confidence is 150/100. -/
def exC2res : CodeResult :=
  ⟨['X'], ['y'], mkRat 150 100, ['A'], none, none⟩

/-- A header line of `s` whose first capture is `sys`. -/
def HeaderFor (s sys : List Char) : Prop :=
  ∃ line caps, line <:+: s ∧ mseq headerToks line = some caps ∧ caps.headD [] = sys

/-- Facts carried by every parsed result: its system equals its map key,
its code occurs backtick-delimited in the input, its system was captured
from a header line of the input, and its confidence is either the default
one half or a matched percentage over one hundred. -/
def GoodResult (s sys : List Char) (r : CodeResult) : Prop :=
  r.system = sys ∧ (tick :: (r.code ++ [tick])) <:+: s ∧ HeaderFor s sys ∧
  (r.confidence = mkRat 1 2 ∨ ∃ n : ℕ, r.confidence = mkRat n 100)

/-- Loop invariant of `parseCodeResults` over the input `s`. -/
def Inv (s : List Char) (st : ParseAcc) : Prop :=
  (∀ sys rs, (sys, rs) ∈ st.systems → ∀ r ∈ rs, GoodResult s sys r) ∧
  (st.currentSystem ≠ [] → HeaderFor s st.currentSystem) ∧
  (st.systems ≠ [] → st.currentSystem ≠ [])

theorem pickFirst_eq_some {α : Type} {l : List (Option α)} {a : α}
    (h : pickFirst l = some a) : some a ∈ l := by
  induction l with
  | nil => simp [pickFirst] at h
  | cons o rest ih =>
    cases o with
    | some b => simp [pickFirst] at h; simp [h]
    | none => simp [pickFirst] at h; exact List.mem_cons_of_mem _ (ih h)

theorem pickFirst_isSome_of_mem {α : Type} {l : List (Option α)} {o : Option α}
    (hm : o ∈ l) (hs : o.isSome) : (pickFirst l).isSome := by
  induction l with
  | nil => simp at hm
  | cons p rest ih =>
    cases p with
    | some b => simp [pickFirst]
    | none =>
      rcases List.mem_cons.1 hm with h | h
      · subst h; simp at hs
      · simpa [pickFirst] using ih h

theorem runLen_le_length (p : Char → Bool) (l : List Char) : runLen p l ≤ l.length := by
  induction l with
  | nil => simp [runLen]
  | cons c cs ih => by_cases h : p c <;> simp [runLen, h] <;> omega

theorem runLen_le_append (p : Char → Bool) (l q : List Char) :
    runLen p l ≤ runLen p (l ++ q) := by
  induction l with
  | nil => simp [runLen]
  | cons c cs ih => by_cases h : p c <;> simp [runLen, h] <;> omega

theorem mseq_lit_elim {c : Char} {ts : List Tok} {l : List Char}
    {caps : List (List Char)} (h : mseq (Tok.lit c :: ts) l = some caps) :
    ∃ xs, l = c :: xs ∧ mseq ts xs = some caps := by
  cases l with
  | nil => simp [mseq] at h
  | cons x xs =>
    by_cases hx : x = c
    · subst hx; exact ⟨xs, rfl, by simpa [mseq] using h⟩
    · simp [mseq, hx] at h

theorem mseq_plus_elim {p : Char → Bool} {lz cap : Bool} {ts : List Tok}
    {l : List Char} {caps : List (List Char)}
    (h : mseq (Tok.plus p lz cap :: ts) l = some caps) :
    ∃ k caps2, 1 ≤ k ∧ k ≤ runLen p l ∧ mseq ts (l.drop k) = some caps2 ∧
      caps = (if cap then l.take k :: caps2 else caps2) := by
  rw [mseq] at h
  have hmem := pickFirst_eq_some h
  rcases List.mem_map.1 hmem with ⟨k, hk, hfk⟩
  have hk' : k ∈ List.range' 1 (runLen p l) := by
    by_cases hlz : lz
    · simpa [hlz] using hk
    · simpa [hlz, List.mem_reverse] using hk
  have hkb := List.mem_range'_1.1 hk'
  rcases Option.map_eq_some'.1 hfk with ⟨caps2, hc2, hcap⟩
  exact ⟨k, caps2, hkb.1, by omega, hc2, hcap.symm⟩

theorem mseq_plus_intro {p : Char → Bool} {lz cap : Bool} {ts : List Tok}
    {l : List Char} {k : Nat} (hk1 : 1 ≤ k) (hk2 : k ≤ runLen p l)
    (h : (mseq ts (l.drop k)).isSome) :
    (mseq (Tok.plus p lz cap :: ts) l).isSome := by
  rw [mseq]
  have hk' : k ∈ (if lz then List.range' 1 (runLen p l)
      else (List.range' 1 (runLen p l)).reverse) := by
    by_cases hlz : lz <;>
      simp [hlz, List.mem_reverse, List.mem_range'_1] <;> omega
  refine pickFirst_isSome_of_mem (List.mem_map.2 ⟨k, hk', rfl⟩) ?_
  simpa [Option.isSome_map] using h

theorem mseq_star_elim {p : Char → Bool} {ts : List Tok}
    {l : List Char} {caps : List (List Char)}
    (h : mseq (Tok.star p :: ts) l = some caps) :
    ∃ k, k ≤ runLen p l ∧ mseq ts (l.drop k) = some caps := by
  rw [mseq] at h
  have hmem := pickFirst_eq_some h
  rcases List.mem_map.1 hmem with ⟨k, hk, hfk⟩
  have hk' : k < runLen p l + 1 := by
    simpa [List.mem_reverse, List.mem_range] using hk
  exact ⟨k, by omega, hfk⟩

theorem mseq_star_intro {p : Char → Bool} {ts : List Tok}
    {l : List Char} {k : Nat} (hk2 : k ≤ runLen p l)
    (h : (mseq ts (l.drop k)).isSome) :
    (mseq (Tok.star p :: ts) l).isSome := by
  rw [mseq]
  refine pickFirst_isSome_of_mem (List.mem_map.2 ⟨k, ?_, rfl⟩) h
  simp [List.mem_reverse, List.mem_range]; omega

theorem mseq_opt_elim {c : Char} {ts : List Tok} {l : List Char}
    (h : (mseq (Tok.opt c :: ts) l).isSome) :
    (∃ xs, l = c :: xs ∧ (mseq ts xs).isSome) ∨ (mseq ts l).isSome := by
  cases l with
  | nil => right; simpa [mseq] using h
  | cons x xs =>
    by_cases hx : x = c
    · subst hx
      have h' : (pickFirst [mseq ts xs, mseq ts (x :: xs)]).isSome := by
        simpa [mseq] using h
      cases h1 : mseq ts xs with
      | some a => exact Or.inl ⟨xs, rfl, by simp [h1]⟩
      | none =>
        cases h2 : mseq ts (x :: xs) with
        | some b => exact Or.inr (by simp [h2])
        | none => rw [h1, h2] at h'; simp [pickFirst] at h'
    · right; simpa [mseq, hx] using h

theorem mseq_opt_skip {c : Char} {ts : List Tok} {l : List Char}
    (h : (mseq ts l).isSome) : (mseq (Tok.opt c :: ts) l).isSome := by
  cases l with
  | nil => simpa [mseq] using h
  | cons x xs =>
    by_cases hx : x = c
    · subst hx
      have h' : (pickFirst [mseq ts xs, mseq ts (x :: xs)]).isSome := by
        cases h1 : mseq ts xs with
        | some a => simp [pickFirst]
        | none =>
          rcases Option.isSome_iff_exists.1 h with ⟨a, ha⟩
          simp [pickFirst, ha]
      simpa [mseq] using h'
    · simpa [mseq, hx] using h

theorem mseq_opt_take {c : Char} {ts : List Tok} {xs : List Char}
    (h : (mseq ts xs).isSome) : (mseq (Tok.opt c :: ts) (c :: xs)).isSome := by
  rcases Option.isSome_iff_exists.1 h with ⟨a, ha⟩
  have h' : (pickFirst [mseq ts xs, mseq ts (c :: xs)]).isSome := by
    simp [pickFirst, ha]
  simpa [mseq] using h'

theorem mseq_append_isSome {q : List Char} :
    ∀ {ts : List Tok} {l : List Char}, Tok.eol ∉ ts →
    (mseq ts l).isSome → (mseq ts (l ++ q)).isSome := by
  intro ts
  induction ts with
  | nil => intro l _ _; simp [mseq]
  | cons t ts ih =>
    intro l hfree h
    have hfree' : Tok.eol ∉ ts := fun hc => hfree (List.mem_cons_of_mem _ hc)
    cases t with
    | lit c =>
      rcases Option.isSome_iff_exists.1 h with ⟨caps, hc⟩
      rcases mseq_lit_elim hc with ⟨xs, rfl, hxs⟩
      have : (mseq ts (xs ++ q)).isSome := ih hfree' (by simp [hxs])
      simpa [mseq] using this
    | plus p lz cap =>
      rcases Option.isSome_iff_exists.1 h with ⟨caps, hc⟩
      rcases mseq_plus_elim hc with ⟨k, caps2, hk1, hk2, hdrop, _⟩
      have hklen : k ≤ l.length := le_trans hk2 (runLen_le_length p l)
      have hdq : (l ++ q).drop k = l.drop k ++ q :=
        List.drop_append_of_le_length hklen
      have : (mseq ts ((l ++ q).drop k)).isSome := by
        rw [hdq]; exact ih hfree' (by simp [hdrop])
      exact mseq_plus_intro hk1 (le_trans hk2 (runLen_le_append p l q)) this
    | star p =>
      rcases Option.isSome_iff_exists.1 h with ⟨caps, hc⟩
      rcases mseq_star_elim hc with ⟨k, hk2, hdrop⟩
      have hklen : k ≤ l.length := le_trans hk2 (runLen_le_length p l)
      have hdq : (l ++ q).drop k = l.drop k ++ q :=
        List.drop_append_of_le_length hklen
      have : (mseq ts ((l ++ q).drop k)).isSome := by
        rw [hdq]; exact ih hfree' (by simp [hdrop])
      exact mseq_star_intro (le_trans hk2 (runLen_le_append p l q)) this
    | opt c =>
      rcases mseq_opt_elim h with ⟨xs, rfl, hxs⟩ | hskip
      · exact mseq_opt_take (ih hfree' hxs)
      · exact mseq_opt_skip (ih hfree' hskip)
    | eol => exact absurd (List.mem_cons_self _ _) hfree

theorem msearch_isSome_of_suffix {ts : List Tok} {t l : List Char}
    (hsuf : t <:+ l) (h : (mseq ts t).isSome) : (msearch ts l).isSome := by
  induction l with
  | nil =>
    have : t = [] := List.suffix_nil.1 hsuf
    subst this; simpa [msearch] using h
  | cons c xs ih =>
    rw [msearch]
    cases hm : mseq ts (c :: xs) with
    | some r => simp
    | none =>
      rcases List.suffix_cons_iff.1 hsuf with rfl | hsuf'
      · rw [hm] at h; simp at h
      · simpa using ih hsuf'

theorem msearch_eq_some {ts : List Tok} {l : List Char} {caps : List (List Char)}
    (h : msearch ts l = some caps) : ∃ t, t <:+ l ∧ mseq ts t = some caps := by
  induction l with
  | nil => exact ⟨[], List.suffix_refl [], by simpa [msearch] using h⟩
  | cons c xs ih =>
    rw [msearch] at h
    cases hm : mseq ts (c :: xs) with
    | some r =>
      rw [hm] at h
      exact ⟨c :: xs, List.suffix_refl _, by simpa [hm] using h⟩
    | none =>
      rw [hm] at h
      rcases ih h with ⟨t, ht, hmt⟩
      exact ⟨t, ht.trans (List.suffix_cons c xs), hmt⟩

theorem splitNl_spec (l : List Char) :
    ∃ h t, splitNl l = h :: t ∧ h <+: l ∧ ∀ x ∈ t, x <:+: l := by
  induction l with
  | nil => exact ⟨[], [], rfl, List.nil_prefix, by simp⟩
  | cons c rest ih =>
    rcases ih with ⟨h, t, hsp, hpre, hinf⟩
    by_cases hc : c = '\n'
    · refine ⟨[], splitNl rest, by simp [splitNl, hc], List.nil_prefix, ?_⟩
      intro x hx
      rw [hsp] at hx
      rcases List.mem_cons.1 hx with rfl | hx'
      · exact List.infix_cons hpre.isInfix
      · exact List.infix_cons (hinf x hx')
    · have hpre' : c :: h <+: c :: rest := by
        rcases hpre with ⟨u, hu⟩
        exact ⟨u, by rw [List.cons_append, hu]⟩
      refine ⟨c :: h, t, by simp [splitNl, hc, hsp], hpre', ?_⟩
      intro x hx
      exact List.infix_cons (hinf x hx)

theorem splitNl_infix {l x : List Char} (hx : x ∈ splitNl l) : x <:+: l := by
  rcases splitNl_spec l with ⟨h, t, hsp, hpre, hinf⟩
  rw [hsp] at hx
  rcases List.mem_cons.1 hx with rfl | hx'
  · exact hpre.isInfix
  · exact hinf x hx'

theorem mapSet_mem {m : List (List Char × List CodeResult)} {k : List Char}
    {v : List CodeResult} {e : List Char × List CodeResult}
    (h : e ∈ mapSet m k v) : e = (k, v) ∨ e ∈ m := by
  unfold mapSet at h
  by_cases hany : m.any (fun p => p.1 = k)
  · rw [if_pos hany] at h
    rcases List.mem_map.1 h with ⟨p, hp, hpe⟩
    by_cases hpk : p.1 = k
    · rw [if_pos hpk] at hpe; exact Or.inl hpe.symm
    · rw [if_neg hpk] at hpe; exact Or.inr (hpe ▸ hp)
  · rw [if_neg hany] at h
    rcases List.mem_append.1 h with hm | hv
    · exact Or.inr hm
    · exact Or.inl (by simpa using hv)

theorem mapModify_mem {m : List (List Char × List CodeResult)} {k : List Char}
    {f : List CodeResult → List CodeResult} {e : List Char × List CodeResult}
    (h : e ∈ mapModify m k f) :
    (∃ rs, (k, rs) ∈ m ∧ e = (k, f rs)) ∨ e ∈ m := by
  unfold mapModify at h
  rcases List.mem_map.1 h with ⟨p, hp, hpe⟩
  by_cases hpk : p.1 = k
  · rw [if_pos hpk] at hpe
    exact Or.inl ⟨p.2, by rw [← hpk]; exact hp, hpe.symm⟩
  · rw [if_neg hpk] at hpe; exact Or.inr (hpe ▸ hp)

theorem mapSet_ne_nil {m : List (List Char × List CodeResult)} {k : List Char}
    {v : List CodeResult} : mapSet m k v ≠ [] := by
  unfold mapSet
  by_cases hany : m.any (fun p => p.1 = k)
  · rw [if_pos hany]
    intro hc
    rw [List.map_eq_nil_iff] at hc
    subst hc; simp at hany
  · rw [if_neg hany]; simp

theorem mapModify_nil_iff {m : List (List Char × List CodeResult)} {k : List Char}
    {f : List CodeResult → List CodeResult} : mapModify m k f = [] ↔ m = [] := by
  unfold mapModify; exact List.map_eq_nil_iff

theorem updateLast_mem {f : CodeResult → CodeResult} {l : List CodeResult}
    {r : CodeResult} (h : r ∈ updateLast f l) :
    r ∈ l ∨ ∃ r0 ∈ l, r = f r0 := by
  induction l with
  | nil => simp [updateLast] at h
  | cons a l ih =>
    cases l with
    | nil =>
      simp [updateLast] at h
      exact Or.inr ⟨a, by simp, h⟩
    | cons b l2 =>
      rw [updateLast] at h
      rcases List.mem_cons.1 h with rfl | h'
      · exact Or.inl (List.mem_cons_self _ _)
      · rcases ih h' with hm | ⟨r0, hr0, hre⟩
        · exact Or.inl (List.mem_cons_of_mem _ hm)
        · exact Or.inr ⟨r0, List.mem_cons_of_mem _ hr0, hre⟩

theorem code_delimited {line : List Char} {cc : List (List Char)}
    (h : msearch codeToks line = some cc) :
    (tick :: (cc.headD [] ++ [tick])) <:+: line := by
  rcases msearch_eq_some h with ⟨t, hsuf, hm⟩
  rcases mseq_lit_elim hm with ⟨u, rfl, hm1⟩
  rcases mseq_plus_elim hm1 with ⟨k, caps2, hk1, hk2, hm2, hcaps⟩
  rcases mseq_lit_elim hm2 with ⟨v, hv, _⟩
  have hcc : cc.headD [] = u.take k := by rw [hcaps]; simp
  have hpre : (tick :: (cc.headD [] ++ [tick])) <+: tick :: u := by
    rw [hcc]
    refine ⟨v, ?_⟩
    simp only [List.cons_append, List.append_assoc, List.singleton_append,
      List.nil_append]
    rw [← hv, List.take_append_drop]
  exact (hpre.isInfix).trans hsuf.isInfix

theorem header_cap_ne_nil {line : List Char} {caps : List (List Char)}
    (h : mseq headerToks line = some caps) : caps.headD [] ≠ [] := by
  rw [headerToks] at h
  rcases mseq_lit_elim h with ⟨u1, _, h1⟩
  rcases mseq_lit_elim h1 with ⟨u2, _, h2⟩
  rcases mseq_lit_elim h2 with ⟨u3, _, h3⟩
  rcases mseq_plus_elim h3 with ⟨k1, caps1, _, _, h4, hc1⟩
  rcases mseq_plus_elim h4 with ⟨k2, caps2, hk21, hk22, _, hc2⟩
  have hlen : 1 ≤ (u3.drop k1).length := by
    have := runLen_le_length dotChar (u3.drop k1)
    omega
  have hne : (u3.drop k1).take k2 ≠ [] := by
    intro hc
    have hlc := congrArg List.length hc
    rw [List.length_take] at hlc
    simp only [List.length_nil] at hlc
    omega
  rw [hc1, hc2]
  simpa using hne

theorem inv_init (s : List Char) : Inv s initAcc := by
  refine ⟨?_, ?_, ?_⟩
  · intro sys rs h; simp [initAcc] at h
  · intro h; simp [initAcc] at h
  · intro h; simp [initAcc] at h

theorem inv_stepSummary {s : List Char} {st : ParseAcc} {line : List Char}
    (h : Inv s st) : Inv s (stepSummary st line) := by
  unfold stepSummary
  split
  · exact h
  · exact h

theorem inv_stepResult {s : List Char} {st : ParseAcc} {line : List Char}
    (hline : line <:+: s) (h : Inv s st) : Inv s (stepResult st line) := by
  unfold stepResult
  split
  case isFalse => exact inv_stepSummary h
  case isTrue hcond =>
    have hcur : st.currentSystem ≠ [] := by
      simp only [Bool.and_eq_true, Bool.not_eq_true', List.isEmpty_eq_false] at hcond
      exact hcond.1.1
    cases hcode : msearch codeToks line with
    | none => simp only [hcode]; exact inv_stepSummary h
    | some cc =>
      cases hdisp : msearch displayToks line with
      | none => simp only [hcode, hdisp]; exact inv_stepSummary h
      | some dd =>
        simp only [hcode, hdisp]
        have hgoodr : ∀ conf : ℚ,
            (conf = mkRat 1 2 ∨ ∃ n : ℕ, conf = mkRat n 100) →
            GoodResult s st.currentSystem
              ⟨cc.headD [], dd.headD [], conf, st.currentSystem, none, none⟩ := by
          intro conf hconf
          exact ⟨rfl, (code_delimited hcode).trans hline, h.2.1 hcur, hconf⟩
        have hinv2 : ∀ r2 : CodeResult,
            GoodResult s st.currentSystem r2 →
            Inv s { st with
              systems := mapModify st.systems st.currentSystem (fun rs => rs ++ [r2]),
              lastSys := some st.currentSystem } := by
          intro r2 hr2
          refine ⟨?_, ?_, ?_⟩
          · intro sys rs hmem r' hr'
            have hmem2 : (sys, rs) ∈
                mapModify st.systems st.currentSystem (fun rs => rs ++ [r2]) := hmem
            rcases mapModify_mem hmem2 with ⟨rs0, hrs0, hse⟩ | hold
            · have hsys : sys = st.currentSystem := congrArg Prod.fst hse
              have hrs : rs = rs0 ++ [r2] := congrArg Prod.snd hse
              subst hsys; subst hrs
              rcases List.mem_append.1 hr' with hin | hnew
              · exact h.1 _ _ hrs0 _ hin
              · rw [List.mem_singleton.1 hnew]; exact hr2
            · exact h.1 _ _ hold _ hr'
          · intro _; exact h.2.1 hcur
          · intro _; exact hcur
        cases hpct : msearch pctToks line with
        | some pp =>
          simp only [hpct]
          exact hinv2 _ (hgoodr _ (Or.inr ⟨digitsToNat (pp.headD []), rfl⟩))
        | none =>
          simp only [hpct]
          exact hinv2 _ (hgoodr _ (Or.inl rfl))

theorem inv_stepParent {s : List Char} {st : ParseAcc} {line : List Char}
    (hline : line <:+: s) (h : Inv s st) : Inv s (stepParent st line) := by
  unfold stepParent
  cases hpar : mseq parentToks line with
  | none => exact inv_stepResult hline h
  | some caps =>
    cases hls : st.lastSys with
    | none => exact inv_stepResult hline h
    | some k =>
      refine ⟨?_, ?_, ?_⟩
      · intro sys rs hmem r' hr'
        have hmem2 : (sys, rs) ∈ mapModify st.systems k (updateLast (fun r =>
            { r with parentCode := some (caps.headD []),
                     parentDisplay := some (jsTrim ((caps.drop 1).headD [])) })) := hmem
        rcases mapModify_mem hmem2 with ⟨rs0, hrs0, hse⟩ | hold
        · have hsys : sys = k := congrArg Prod.fst hse
          have hrs : rs = updateLast _ rs0 := congrArg Prod.snd hse
          subst hsys
          rw [hrs] at hr'
          rcases updateLast_mem hr' with hin | ⟨r0, hr0, hre⟩
          · exact h.1 _ _ hrs0 _ hin
          · have hg := h.1 _ _ hrs0 _ hr0
            rw [hre]
            exact hg
        · exact h.1 _ _ hold _ hr'
      · intro hc; exact h.2.1 hc
      · intro hc
        have : st.systems ≠ [] := fun he => hc (by simp [mapModify, he])
        exact h.2.2 this

theorem inv_processLine {s : List Char} {st : ParseAcc} {line : List Char}
    (hline : line <:+: s) (h : Inv s st) : Inv s (processLine st line) := by
  unfold processLine
  cases hhdr : mseq headerToks line with
  | none => exact inv_stepParent hline h
  | some caps =>
    refine ⟨?_, ?_, ?_⟩
    · intro sys rs hmem r' hr'
      rcases mapSet_mem hmem with he | hold
      · have : rs = [] := congrArg Prod.snd he
        rw [this] at hr'; simp at hr'
      · exact h.1 _ _ hold _ hr'
    · intro _
      exact ⟨line, caps, hline, hhdr, rfl⟩
    · intro _
      exact header_cap_ne_nil hhdr

theorem inv_fold {s : List Char} :
    ∀ (lines : List (List Char)) (st : ParseAcc),
    (∀ l ∈ lines, l <:+: s) → Inv s st →
    Inv s (lines.foldl processLine st) := by
  intro lines
  induction lines with
  | nil => intro st _ h; simpa using h
  | cons line rest ih =>
    intro st hl h
    rw [List.foldl_cons]
    exact ih _ (fun l h2 => hl l (List.mem_cons_of_mem _ h2))
      (inv_processLine (hl line (List.mem_cons_self _ _)) h)

theorem parse_inv (s : List Char) :
    Inv s ((splitNl s).foldl processLine initAcc) :=
  inv_fold (splitNl s) initAcc (fun _ hl => splitNl_infix hl) (inv_init s)

theorem headerToks_eol_free : Tok.eol ∉ headerToks := by
  intro h
  simp [headerToks] at h

theorem mkRat_nat_div100 (n : ℕ) : mkRat (n : ℤ) 100 = (n : ℚ) / 100 := by
  rw [Rat.mkRat_eq_div]; push_cast; ring

theorem mkRat_half : mkRat 1 2 = (1 : ℚ) / 2 := by
  rw [Rat.mkRat_eq_div]; norm_num

/-- C1.  No fabricated codes: every `CodeResult` in
`parseCodeResults(s).systems` is listed under a map key equal to its own
`system` field, its code occurs verbatim, backtick-delimited, in the input
`s`, and its system name is the capture of a `### <system> (N results)`
header line occurring in `s`; `parseCodeResults` never emits a code absent
from its input. -/
theorem parse_results_trace_to_input (s sys : List Char) (rs : List CodeResult)
    (r : CodeResult) (h1 : (sys, rs) ∈ (parseCodeResults s).systems) (h2 : r ∈ rs) :
    r.system = sys ∧ (tick :: (r.code ++ [tick])) <:+: s ∧
    ∃ line caps, line <:+: s ∧ mseq headerToks line = some caps ∧
      caps.headD [] = sys := by
  have hinv := parse_inv s
  have h1' : (sys, rs) ∈ ((splitNl s).foldl processLine initAcc).systems := h1
  have hg := hinv.1 sys rs h1' r h2
  exact ⟨hg.1, hg.2.1, hg.2.2.1⟩

theorem parse_results_trace_to_input_witness :
    ((exC1sys, [exC1res]) ∈ (parseCodeResults exC1input).systems ∧
      exC1res ∈ [exC1res]) ∧
    (exC1res.system = exC1sys ∧
      (tick :: (exC1res.code ++ [tick])) <:+: exC1input ∧
      ∃ line caps, line <:+: exC1input ∧ mseq headerToks line = some caps ∧
        caps.headD [] = exC1sys) :=
  ⟨⟨by decide, by decide⟩,
   parse_results_trace_to_input exC1input exC1sys [exC1res] exC1res
     (by decide) (by decide)⟩

/-- C2, counterexample.  The claim that every parsed confidence lies in
[0,1] is false: on a message whose result line carries `150%`, the parser
produces confidence 150/100 > 1 (the source divides the matched percentage
by 100 without clamping). -/
theorem parse_confidence_out_of_range :
    ((['A'], [exC2res]) ∈ (parseCodeResults exC2input).systems) ∧
    ¬(exC2res.confidence ≤ 1) :=
  ⟨by decide, by decide⟩

/-- C2, amended.  Every parsed confidence is nonnegative and is either the
default 1/2 (no percentage on the line) or P/100 for the matched
percentage P; it lies in [0,1] exactly when P ≤ 100, which the parser does
not enforce. -/
theorem parse_confidence_default_or_percent (s sys : List Char)
    (rs : List CodeResult) (r : CodeResult)
    (h1 : (sys, rs) ∈ (parseCodeResults s).systems) (h2 : r ∈ rs) :
    0 ≤ r.confidence ∧
    (r.confidence = (1 : ℚ) / 2 ∨ ∃ n : ℕ, r.confidence = (n : ℚ) / 100) := by
  have hinv := parse_inv s
  have h1' : (sys, rs) ∈ ((splitNl s).foldl processLine initAcc).systems := h1
  have hg := hinv.1 sys rs h1' r h2
  rcases hg.2.2.2 with hd | ⟨n, hp⟩
  · rw [hd, mkRat_half]
    exact ⟨by norm_num, Or.inl rfl⟩
  · rw [hp, mkRat_nat_div100]
    exact ⟨by positivity, Or.inr ⟨n, rfl⟩⟩

theorem parse_confidence_default_or_percent_witness :
    ((['A'], [exC2res]) ∈ (parseCodeResults exC2input).systems ∧
      exC2res ∈ [exC2res]) ∧
    (0 ≤ exC2res.confidence ∧
     (exC2res.confidence = (1 : ℚ) / 2 ∨
      ∃ n : ℕ, exC2res.confidence = (n : ℚ) / 100)) :=
  ⟨⟨by decide, by decide⟩,
   parse_confidence_default_or_percent exC2input ['A'] [exC2res] exC2res
     (by decide) (by decide)⟩

/-- C10, counterexample.  Parser/detector agreement fails: `hasCodeResults`
uses the header pattern unanchored, so on an input whose only header is
preceded by a character on the same line it returns true while
`parseCodeResults` (whose header pattern is anchored at line start)
produces no system entry. -/
theorem hasCode_detects_unparsed_header :
    hasCodeResults (("x### A (1 results)").toList) = true ∧
    (parseCodeResults (("x### A (1 results)").toList)).systems = [] :=
  ⟨by decide, by decide⟩

/-- C10, amended.  The forward direction holds: whenever `parseCodeResults`
produces at least one system entry, `hasCodeResults` returns true; the
converse fails because the detector's pattern is unanchored. -/
theorem hasCodeResults_of_parse_nonempty (s : List Char)
    (h : (parseCodeResults s).systems ≠ []) : hasCodeResults s = true := by
  have hinv := parse_inv s
  have hsys : ((splitNl s).foldl processLine initAcc).systems ≠ [] := h
  have hcur := hinv.2.2 hsys
  rcases hinv.2.1 hcur with ⟨line, caps, hinf, hm, _⟩
  rcases hinf with ⟨a, b, hab⟩
  have hsome : (mseq headerToks (line ++ b)).isSome :=
    mseq_append_isSome headerToks_eol_free (by simp [hm])
  have hsuffix : (line ++ b) <:+ s := ⟨a, by rw [← List.append_assoc]; exact hab⟩
  have hs := msearch_isSome_of_suffix hsuffix hsome
  unfold hasCodeResults
  exact hs

theorem hasCodeResults_of_parse_nonempty_witness :
    (parseCodeResults (("### LOINC (2 results)").toList)).systems ≠ [] ∧
    hasCodeResults (("### LOINC (2 results)").toList) = true :=
  ⟨by decide, hasCodeResults_of_parse_nonempty _ (by decide)⟩

/-- C3.  An input whose trimmed form is empty is rejected with zero backend
interaction: `handleSubmit` sends nothing and leaves the input unchanged,
and the spec-modelled orchestrator entry point makes zero backend calls,
returns an empty result list, and the fixed "no query provided" summary. -/
theorem empty_query_rejected (st : InputAreaState)
    (doSearch : List Char → RunOutcome)
    (h : (jsTrim st.input).isEmpty = true) :
    (handleSubmit st).sent = [] ∧ (handleSubmit st).input = st.input ∧
    (runSearch doSearch st.input).backendCalls = 0 ∧
    (runSearch doSearch st.input).results = [] ∧
    (runSearch doSearch st.input).summary = noQueryMessage := by
  refine ⟨?_, ?_, ?_, ?_, ?_⟩ <;> simp [handleSubmit, runSearch, h]

theorem empty_query_rejected_witness :
    (jsTrim ((" \t ").toList)).isEmpty = true ∧
    ((handleSubmit ⟨(" \t ").toList, false⟩).sent = [] ∧
     (handleSubmit ⟨(" \t ").toList, false⟩).input = (⟨(" \t ").toList, false⟩ : InputAreaState).input ∧
     (runSearch (fun q => ⟨q, [], 5⟩) ((" \t ").toList)).backendCalls = 0 ∧
     (runSearch (fun q => ⟨q, [], 5⟩) ((" \t ").toList)).results = [] ∧
     (runSearch (fun q => ⟨q, [], 5⟩) ((" \t ").toList)).summary = noQueryMessage) :=
  ⟨by decide, empty_query_rejected ⟨(" \t ").toList, false⟩ (fun q => ⟨q, [], 5⟩) (by decide)⟩

theorem orchIters_bound (stop : Nat → Bool) (wanted : Nat → Nat) :
    ∀ (n : Nat) (st : OrchBudgetState), st.calls ≤ 12 → st.iterations ≤ 3 →
    (orchIters stop wanted n st).calls ≤ 12 ∧
    (orchIters stop wanted n st).iterations ≤ 3 := by
  intro n
  induction n with
  | zero => intro st h1 h2; exact ⟨h1, h2⟩
  | succ n ih =>
    intro st h1 h2
    rw [orchIters]
    split
    · exact ⟨h1, h2⟩
    case isFalse hguard =>
      have hlt : st.iterations < 3 ∧ st.calls < 12 := by
        simp only [Bool.or_eq_true, not_or, decide_eq_true_eq] at hguard
        omega
      split
      · exact ⟨by dsimp only; omega, by dsimp only; omega⟩
      · exact ih _ (by dsimp only; omega) (by dsimp only; omega)

/-- C4.  Budget invariant: for every Reflector stop function and every
Planner demand, one orchestration run makes at most 12 backend calls and
at most 3 iterations — the caps are enforced by the Orchestrator's own
guards and the Planner's budget truncation, independent of the Reflector. -/
theorem orchestrator_budget (stop : Nat → Bool) (wanted : Nat → Nat) :
    (runOrchestration stop wanted).calls ≤ 12 ∧
    (runOrchestration stop wanted).iterations ≤ 3 :=
  orchIters_bound stop wanted 3 ⟨0, 0⟩ (by decide) (by decide)

/-- C5.  The confidence score is the fixed weighted sum
0.30·lexical + 0.20·(1/(1+rank·0.1)) + 0.20·min(code_specificity, 1) +
0.30·semantic, and the four weights sum to 1. -/
theorem compute_confidence_formula (jaccard embedding : String → String → ℚ)
    (query : String) (result : PRDResult) :
    compute_confidence jaccard embedding query result =
      (30 / 100) * jaccard query result.display
      + (20 / 100) * (1 / (1 + (result.rank : ℚ) * (1 / 10)))
      + (20 / 100) * min (code_specificity result.code) 1
      + (30 / 100) * embedding query result.display
    ∧ (30 / 100 : ℚ) + 20 / 100 + 20 / 100 + 30 / 100 = 1 := by
  constructor
  · unfold compute_confidence code_specificity
    ring
  · norm_num

/-- C6.  The confidence score is antitone in the backend rank: with every
other factor fixed (same display and code), a result with smaller rank
scores at least as high, because the rank-decay term 1/(1+rank·0.1) is
antitone and its weight is positive. -/
theorem confidence_antitone_in_rank (jaccard embedding : String → String → ℚ)
    (query display code : String) (r1 r2 : ℕ) (h : r1 ≤ r2) :
    compute_confidence jaccard embedding query ⟨display, code, r2⟩ ≤
    compute_confidence jaccard embedding query ⟨display, code, r1⟩ := by
  unfold compute_confidence
  dsimp only
  have h1 : (0 : ℚ) < 1 + (r1 : ℚ) * (1 / 10) := by positivity
  have h2 : (1 : ℚ) + (r1 : ℚ) * (1 / 10) ≤ 1 + (r2 : ℚ) * (1 / 10) := by
    have hc : (r1 : ℚ) ≤ (r2 : ℚ) := by exact_mod_cast h
    linarith
  have h3 := one_div_le_one_div_of_le h1 h2
  have h4 : 1 / (1 + (r2 : ℚ) * (1 / 10)) * (20 / 100) ≤
      1 / (1 + (r1 : ℚ) * (1 / 10)) * (20 / 100) :=
    mul_le_mul_of_nonneg_right h3 (by norm_num)
  linarith

theorem confidence_antitone_in_rank_witness :
    0 ≤ 1 ∧
    compute_confidence (fun _ _ => (0 : ℚ)) (fun _ _ => (0 : ℚ)) ("q")
        ⟨("d"), ("c"), 1⟩ ≤
      compute_confidence (fun _ _ => (0 : ℚ)) (fun _ _ => (0 : ℚ)) ("q")
        ⟨("d"), ("c"), 0⟩ :=
  ⟨by decide,
   confidence_antitone_in_rank (fun _ _ => (0 : ℚ)) (fun _ _ => (0 : ℚ))
     ("q") ("d") ("c") 0 1 (by decide)⟩

/-- C7.  Consolidation is reproducible: two runs of `consolidate` on the
same scored-result set, with similarity oracles that answer identically,
produce identical consolidated lists, order included — the modelled
pipeline (exact dedup, greedy clustering, first-highest-confidence
representative, rank sort with system-priority and code tie-breaks,
per-system cap) is a pure function of the oracle and the input. -/
theorem consolidate_reproducible (sim1 sim2 : String → String → ℚ)
    (S : List ScoredResult) (h : ∀ a b, sim1 a b = sim2 a b) :
    consolidate sim1 S = consolidate sim2 S := by
  have hf : sim1 = sim2 := funext fun a => funext fun b => h a b
  rw [hf]

theorem consolidate_reproducible_witness :
    (∀ a b : String, (fun _ _ => (0 : ℚ)) a b = (fun _ _ => (0 : ℚ)) a b) ∧
    consolidate (fun _ _ => (0 : ℚ))
        [⟨("LOINC"), ("4548-4"), ("HbA1c"), mkRat 9 10, []⟩] =
      consolidate (fun _ _ => (0 : ℚ))
        [⟨("LOINC"), ("4548-4"), ("HbA1c"), mkRat 9 10, []⟩] :=
  ⟨fun _ _ => rfl,
   consolidate_reproducible _ _ [⟨("LOINC"), ("4548-4"), ("HbA1c"), mkRat 9 10, []⟩]
     (fun _ _ => rfl)⟩

theorem addItem_uniq {st : BundleState} {item : BundleItem}
    (h : BundleUniq st.items) : BundleUniq (addItem st item).items := by
  unfold addItem
  split
  · exact h
  case isFalse hany =>
    unfold BundleUniq at h ⊢
    rw [List.pairwise_append]
    refine ⟨h, by simp, ?_⟩
    intro a ha b hb
    rw [List.mem_singleton.1 hb]
    intro hc
    apply hany
    rw [List.any_eq_true]
    exact ⟨a, ha, by simp [hc.1, hc.2]⟩

theorem removeItem_uniq {st : BundleState} {c s : String}
    (h : BundleUniq st.items) : BundleUniq (removeItem st c s).items :=
  List.Pairwise.sublist (List.filter_sublist _) h

theorem runBundle_fold_uniq :
    ∀ (ops : List BundleOp) (st : BundleState), BundleUniq st.items →
    BundleUniq (ops.foldl applyBundleOp st).items := by
  intro ops
  induction ops with
  | nil => intro st h; simpa using h
  | cons op rest ih =>
    intro st h
    rw [List.foldl_cons]
    apply ih
    cases op with
    | add i => exact addItem_uniq h
    | remove c s => exact removeItem_uniq h
    | clr => exact List.Pairwise.nil
    | toggle => exact h
    | setOp b => exact h

/-- C8.  Bundle uniqueness: `addItem` returns the state unchanged when an
item with the same (code, system) pair is present, `addItem`, `removeItem`
and `clear` preserve the no-duplicate-pair invariant, `hasItem` answers
exactly membership of the pair, and every state reachable from the initial
store satisfies the invariant. -/
theorem bundle_uniqueness (st : BundleState) (item : BundleItem) (c s : String)
    (ops : List BundleOp) :
    (hasItem st item.code item.system = true → addItem st item = st) ∧
    (BundleUniq st.items → BundleUniq (addItem st item).items) ∧
    (BundleUniq st.items → BundleUniq (removeItem st c s).items) ∧
    BundleUniq clearBundle.items ∧
    (hasItem st c s = true ↔ ∃ i ∈ st.items, i.code = c ∧ i.system = s) ∧
    BundleUniq (runBundle ops).items := by
  refine ⟨?_, fun h => addItem_uniq h, fun h => removeItem_uniq h,
    List.Pairwise.nil, ?_, ?_⟩
  · intro h
    unfold hasItem at h
    unfold addItem
    rw [if_pos h]
  · unfold hasItem
    simp [List.any_eq_true]
  · exact runBundle_fold_uniq ops ⟨[], false⟩ List.Pairwise.nil

theorem bundle_uniqueness_witness :
    (hasItem ⟨[⟨("E11.9"), ("ICD-10-CM"), ("Type 2 diabetes")⟩], true⟩
        ("E11.9") ("ICD-10-CM") = true) ∧
    addItem ⟨[⟨("E11.9"), ("ICD-10-CM"), ("Type 2 diabetes")⟩], true⟩
        ⟨("E11.9"), ("ICD-10-CM"), ("Type 2 diabetes")⟩ =
      ⟨[⟨("E11.9"), ("ICD-10-CM"), ("Type 2 diabetes")⟩], true⟩ ∧
    BundleUniq (runBundle [BundleOp.add ⟨("a"), ("b"), ("c")⟩,
        BundleOp.add ⟨("a"), ("b"), ("c")⟩]).items := by
  have h := bundle_uniqueness
    ⟨[⟨("E11.9"), ("ICD-10-CM"), ("Type 2 diabetes")⟩], true⟩
    ⟨("E11.9"), ("ICD-10-CM"), ("Type 2 diabetes")⟩ ("x") ("y")
    [BundleOp.add ⟨("a"), ("b"), ("c")⟩, BundleOp.add ⟨("a"), ("b"), ("c")⟩]
  exact ⟨by decide, h.1 (by decide), h.2.2.2.2.2⟩

theorem deleteThread_live {st : ChatHistoryState} {id : String}
    (h : st.liveThreadId = some id) : deleteThread st id = st := by
  simp [deleteThread, h]

theorem deleteThread_other {st : ChatHistoryState} {id : String}
    (h : st.liveThreadId ≠ some id) :
    (deleteThread st id).threads = st.threads.filter (fun t => !(t.id == id)) ∧
    (deleteThread st id).liveThreadId = st.liveThreadId := by
  have hb : (st.liveThreadId == some id) = false := by
    simp only [beq_eq_false_iff_ne, ne_eq]
    exact h
  unfold deleteThread
  rw [if_neg (by simp [hb])]
  exact ⟨rfl, rfl⟩

theorem runChat_fold_live_ok :
    ∀ (ops : List ChatOp) (st : ChatHistoryState), LiveOk st →
    LiveOk (ops.foldl applyChatOp st) := by
  intro ops
  induction ops with
  | nil => intro st h; simpa using h
  | cons op rest ih =>
    intro st h
    rw [List.foldl_cons]
    apply ih
    cases op with
    | create id now =>
      show LiveOk (createThread st id now)
      intro i hi
      have : id = i := by simpa [createThread] using hi
      subst this
      exact ⟨_, List.mem_cons_self _ _, rfl⟩
    | delete id =>
      show LiveOk (deleteThread st id)
      by_cases hl : st.liveThreadId = some id
      · rw [deleteThread_live hl]; exact h
      · intro i hi
        rcases deleteThread_other hl with ⟨hth, hlv⟩
        rw [hlv] at hi
        rcases h i hi with ⟨t, ht, hid⟩
        refine ⟨t, ?_, hid⟩
        rw [hth, List.mem_filter]
        refine ⟨ht, ?_⟩
        have : t.id ≠ id := by
          intro hc
          apply hl
          rw [hi, ← hid, hc]
        simp [this]

/-- C9.  Live-thread deletion protection: deleting the live thread returns
the state completely unchanged; deleting any other id removes exactly the
threads with that id, leaves the others untouched and the live id
unchanged; and after any sequence of `createThread` and `deleteThread`
operations from the initial state, a set live id always names an existing
thread. -/
theorem deleteThread_protects_live (st : ChatHistoryState) (id : String)
    (ops : List ChatOp) :
    (st.liveThreadId = some id → deleteThread st id = st) ∧
    (st.liveThreadId ≠ some id →
      (deleteThread st id).threads = st.threads.filter (fun t => !(t.id == id)) ∧
      (∀ t ∈ st.threads, t.id ≠ id → t ∈ (deleteThread st id).threads) ∧
      (deleteThread st id).liveThreadId = st.liveThreadId) ∧
    LiveOk (runChat ops) := by
  refine ⟨fun h => deleteThread_live h, ?_, ?_⟩
  · intro h
    rcases deleteThread_other h with ⟨hth, hlv⟩
    refine ⟨hth, ?_, hlv⟩
    intro t ht hne
    rw [hth, List.mem_filter]
    exact ⟨ht, by simp [hne]⟩
  · exact runChat_fold_live_ok ops ⟨[], none, none, false⟩ (by intro i hi; simp at hi)

theorem deleteThread_protects_live_witness :
    ((⟨[⟨("t1"), ("New conversation"), ("d1"), ("d1"), []⟩],
        some ("t1"), some ("t1"), false⟩ : ChatHistoryState).liveThreadId =
      some ("t1")) ∧
    deleteThread
        ⟨[⟨("t1"), ("New conversation"), ("d1"), ("d1"), []⟩],
          some ("t1"), some ("t1"), false⟩ ("t1") =
      ⟨[⟨("t1"), ("New conversation"), ("d1"), ("d1"), []⟩],
        some ("t1"), some ("t1"), false⟩ ∧
    LiveOk (runChat [ChatOp.create ("t1") ("d1"), ChatOp.create ("t2") ("d2"),
      ChatOp.delete ("t1")]) := by
  have h := deleteThread_protects_live
    ⟨[⟨("t1"), ("New conversation"), ("d1"), ("d1"), []⟩],
      some ("t1"), some ("t1"), false⟩ ("t1")
    [ChatOp.create ("t1") ("d1"), ChatOp.create ("t2") ("d2"),
      ChatOp.delete ("t1")]
  exact ⟨by decide, h.1 (by decide), h.2.2⟩

end CCF
